import Mathlib

/-!
Verification of the core of `dbt_checkpoint/check_column_desc_are_same.py`:
column extraction, global sort by column name, grouping of contiguous equal
names, conflict detection over distinct description values, and the control
flow of `main` around manifest loading.

The Python functions are shallowly embedded as Lean functions over explicit
lists.  Schema records are the structured values the Schema Source Reader
(`get_filenames` + `get_model_schemas`, external collaborators) hands to the
core, so `get_all_columns`, `get_grouped` and `check_column_desc` are
parameterised by the list of schema records instead of by file paths.
Python dictionary lookups that may miss (`column.get("name")`,
`column.get("description")`) are embedded as `Option`.  A Python `TypeError`
raised by `list.sort` (comparing `None` with `str`) is embedded as
`Except.error ()`.
-/

namespace DbtCheckpoint

/-- One entry of a schema record's `columns` list: a Python dict from which
the source reads the keys `name` and `description`, each possibly missing. -/
structure RawColumn where
  name : Option String
  description : Option String
deriving DecidableEq, Repr

/-- One schema record, as produced by the external Schema Source Reader:
the source file identity together with the declared columns
(`item.schema.get("columns", {})`; a missing key yields the empty list). -/
structure ModelSchema where
  file : String
  columns : List RawColumn
deriving DecidableEq, Repr

/-- Embeds the `ColumnDescription` dataclass (source lines 23-28).
`column_name` is `Option String` because `column.get("name")` is `None` when
the key is missing; likewise `description`.  `new_description` defaults to
`None` and is never written by the core. -/
structure ColumnDescription where
  column_name : Option String
  description : Option String
  file : String
  new_description : Option String := none
deriving DecidableEq, Repr

/-- The membership test `column_name not in ignore_list` (source line 38).
A missing name (`None`) is not equal to any string in the ignore list, so the
test is always true for it. -/
def pyNotIn (name : Option String) (ignore_list : List String) : Bool :=
  match name with
  | none => true
  | some n => decide (n ∉ ignore_list)

/-- Embeds `get_all_columns` (source lines 31-39): for each schema record,
for each declared column, read `description` and `name` and, when the name
is not in the ignore list, emit one `ColumnDescription`.  The generator is
embedded as the list of the values it yields, in yield order. -/
def get_all_columns (schemas : List ModelSchema) (ignore_list : List String) :
    List ColumnDescription :=
  schemas.flatMap fun item =>
    item.columns.filterMap fun column =>
      if pyNotIn column.name ignore_list then
        some { column_name := column.name
               description := column.description
               file := item.file }
      else none

/-- Lexicographic comparison of code-point sequences: exactly the order
Python uses for `str` comparison (shorter prefix first, otherwise first
differing code point decides).  Characters are compared through the linear
order on `Char`, which is the code-point order. -/
def lexLe : List Char → List Char → Bool
  | [], _ => true
  | _ :: _, [] => false
  | a :: as, b :: bs => if a < b then true else if b < a then false else lexLe as bs

/-- Comparison of the sort keys `x.column_name` (source line 88).  Python
raises a `TypeError` whenever `None` is compared with a string, so any run
in which a `none` key would actually be compared is sent to `Except.error`
by `pySortRaises` below; the `none` cases here are therefore never
observable through `check_column_desc` or `get_grouped` and merely totalise
the function. -/
def optLe : Option String → Option String → Bool
  | none, _ => true
  | some _, none => false
  | some s, some t => lexLe s.data t.data

/-- The ordering of descriptors used by `sorted`/`list.sort` with
`key=lambda x: x.column_name` (source lines 57 and 88). -/
def colLe (a b : ColumnDescription) : Prop :=
  optLe a.column_name b.column_name = true

instance : DecidableRel colLe := fun a b =>
  inferInstanceAs (Decidable (optLe a.column_name b.column_name = true))

/-- Strict order on sort keys, used to state that group keys are strictly
increasing after grouping a sorted list. -/
def keyLt (u v : Option String) : Prop :=
  optLe u v = true ∧ u ≠ v

/-- Python's `list.sort`/`sorted` is a stable sort by the key; the stable
sort of a list by a total key order is unique, so the insertion sort gives
exactly the list Python produces (on runs where the sort does not raise). -/
def sortedColumns (cols : List ColumnDescription) : List ColumnDescription :=
  List.insertionSort colLe cols

/-- Embeds `itertools.groupby` (source lines 63 and 91) applied to a list:
partition into maximal runs of contiguous equal keys, each run tagged with
its key. -/
def groupRuns : List ColumnDescription → List (Option String × List ColumnDescription)
  | [] => []
  | c :: cs =>
    match groupRuns cs with
    | [] => [(c.column_name, [c])]
    | (k, g) :: rest =>
      if c.column_name = k then (k, c :: g) :: rest
      else (c.column_name, [c]) :: (k, g) :: rest

/-- The grouped structure the source builds in lines 88-91: sort the
extracted descriptors globally by column name, then group contiguous equal
names. -/
def groupedColumns (cols : List ColumnDescription) :
    List (Option String × List ColumnDescription) :=
  groupRuns (sortedColumns cols)

/-- The conflict test of source lines 96-101 for one group: the group has
more than one member (`len(group_list) > 1`) and the `Counter` over its
description values has more than one distinct key
(`len(group_cnt.keys()) > 1`).  The number of distinct keys of
`Counter(xs)` is the number of distinct values of `xs`, i.e. the length of
`xs` with duplicates removed. -/
def isConflict (p : Option String × List ColumnDescription) : Bool :=
  decide (1 < p.2.length) && decide (1 < (p.2.map (fun c => c.description)).dedup.length)

/-- The groups the source reports as conflicts (the `CONFLICT FOUND` branch,
source lines 101-105), in the order the loop visits them. -/
def conflictGroups (cols : List ColumnDescription) :
    List (Option String × List ColumnDescription) :=
  (groupedColumns cols).filter isConflict

/-- The final value of `status_code` in `check_column_desc` (source lines
68, 93-102): initially `0`, set to `1` when some group passes the conflict
test. -/
def statusOf (cols : List ColumnDescription) : Nat :=
  if (groupedColumns cols).any isConflict then 1 else 0

/-- Whether `list.sort(key=lambda x: x.column_name)` raises `TypeError`.
CPython's sort compares every element with some other element as soon as
the list has at least two elements (run detection already compares each
element with its predecessor), and every comparison involving `None` and a
key raises; a list of length at most one performs no comparison.  So the
sort raises exactly when the list has at least two elements and some key is
`None`. -/
def pySortRaises (cols : List ColumnDescription) : Bool :=
  decide (2 ≤ cols.length) && cols.any (fun c => c.column_name.isNone)

/-- Embeds `check_column_desc` (source lines 67-112).  `ignore or []`
replaces a missing ignore argument by the empty list (line 70).  The result
dict `{"status_code": status_code}` is embedded as the status; an uncaught
`TypeError` from the sort (line 88) is `Except.error ()`. -/
def check_column_desc (schemas : List ModelSchema) (ignore : Option (List String)) :
    Except Unit Nat :=
  if pySortRaises (get_all_columns schemas (ignore.getD [])) then Except.error ()
  else Except.ok (statusOf (get_all_columns schemas (ignore.getD [])))

/-- Embeds `get_grouped` (source lines 42-64): same extraction, sort
(`sorted`, line 57, which raises like `list.sort`) and grouping (line 63);
the returned lazy `groupby` iterator is embedded as the list of
(key, group) pairs it yields. -/
def get_grouped (schemas : List ModelSchema) (ignore : Option (List String)) :
    Except Unit (List (Option String × List ColumnDescription)) :=
  if pySortRaises (get_all_columns schemas (ignore.getD [])) then Except.error ()
  else Except.ok (groupedColumns (get_all_columns schemas (ignore.getD [])))

/-- Embeds the control flow of `main` (source lines 115-153).  Loading the
manifest (`get_dbt_manifest`, an external collaborator) is abstracted by its
outcome: `Except.error e` when it raises `JsonOpenError e`.  The first
component is the returned exit code (`Except.error ()` if an uncaught
exception escapes the core check); the second records whether
`check_column_desc` was invoked. -/
def main (manifest_load : Except String Unit) (schemas : List ModelSchema)
    (ignore : Option (List String)) : Except Unit Nat × Bool :=
  match manifest_load with
  | Except.error _ => (Except.ok 1, false)
  | Except.ok _ => (check_column_desc schemas ignore, true)

/-- Specification-side view used to state the claims: the description values
of all extracted occurrences of the column name `n`, in extraction order.
For a name outside the ignore list these are exactly its occurrences across
all input schema records. -/
def descriptionsFor (schemas : List ModelSchema) (ignore_list : List String)
    (n : String) : List (Option String) :=
  ((get_all_columns schemas ignore_list).filter
      (fun c => decide (c.column_name = some n))).map (fun c => c.description)

/-- Specification-side predicate: some column name outside the ignore list
carries more than one distinct description value among its extracted
occurrences. -/
def specConflict (schemas : List ModelSchema) (ignore_list : List String) : Prop :=
  ∃ n : String, n ∉ ignore_list ∧
    1 < (descriptionsFor schemas ignore_list n).dedup.length

/-- Removes every column entry named `n` from every schema record: the input
with the column `n` deleted at the source. -/
def dropColumn (n : String) (schemas : List ModelSchema) : List ModelSchema :=
  schemas.map fun r =>
    { file := r.file, columns := r.columns.filter fun c => !(decide (c.name = some n)) }

/-- Two schema files declaring the same column with the same description and
one with a different one: used to exercise the theorems on concrete input. -/
def schemasA : List ModelSchema :=
  [⟨"a.yml", [⟨some ("x"), some ("p")⟩]⟩, ⟨"b.yml", [⟨some ("x"), some ("q")⟩]⟩]

/-- Two files sharing the column name `x`: concrete input for the grouping
invariant. -/
def schemasB : List ModelSchema :=
  [⟨"a.yml", [⟨some ("x"), some ("p")⟩]⟩, ⟨"b.yml", [⟨some ("x"), some ("q")⟩]⟩]

/-- One file with a described `st` column, another declaring `st` without a
description: concrete input for the absent-versus-present property. -/
def schemasC : List ModelSchema :=
  [⟨"a.yml", [⟨some ("st"), some ("o")⟩]⟩, ⟨"b.yml", [⟨some ("st"), none⟩]⟩]

/-- A schema record holding two column entries whose `name` key is missing:
concrete input showing missing-name entries are not skipped. -/
def schemasD : List ModelSchema :=
  [⟨"model.yml", [⟨none, some ("d")⟩, ⟨none, some ("e")⟩]⟩]

/-- A single schema file declaring the same column name twice with differing
descriptions: concrete input for the single-file conflict behaviour. -/
def schemasE : List ModelSchema :=
  [⟨"a.yml", [⟨some ("u"), some ("d1")⟩, ⟨some ("u"), some ("d2")⟩]⟩]

/-- A conflicting column `m` plus a column `n` occurring once: concrete
input for the single-occurrence property. -/
def schemasF : List ModelSchema :=
  [⟨"a.yml", [⟨some ("m"), some ("d1")⟩, ⟨some ("n"), some ("d3")⟩]⟩,
   ⟨"b.yml", [⟨some ("m"), some ("d2")⟩]⟩]

/-- The column `n` conflicts across two files: concrete input for the
ignore-set property. -/
def schemasG : List ModelSchema :=
  [⟨"a.yml", [⟨some ("n"), some ("d1")⟩]⟩, ⟨"b.yml", [⟨some ("n"), some ("d2")⟩]⟩]

/-- One record with one missing-name column entry: concrete input for the
amended extractor claim. -/
def schemasH : List ModelSchema :=
  [⟨"m.yml", [⟨none, some ("d")⟩]⟩]

/-! Order properties of the key comparison. -/

theorem lexLe_total : ∀ x y : List Char, lexLe x y = true ∨ lexLe y x = true
  | [], _ => Or.inl rfl
  | _ :: _, [] => Or.inr rfl
  | a :: as, b :: bs => by
    simp only [lexLe]
    rcases lt_trichotomy a b with h | h | h
    · left; simp [h]
    · subst h
      simp only [lt_irrefl, if_false]
      exact lexLe_total as bs
    · right; simp [h]

theorem lexLe_trans : ∀ x y z : List Char,
    lexLe x y = true → lexLe y z = true → lexLe x z = true
  | [], _, _ => fun _ _ => rfl
  | a :: as, [], _ => fun h _ => by simp [lexLe] at h
  | _ :: _, _ :: _, [] => fun _ h => by simp [lexLe] at h
  | a :: as, b :: bs, c :: cs => by
    intro hxy hyz
    simp only [lexLe] at hxy hyz ⊢
    by_cases hab : a < b
    · by_cases hbc : b < c
      · simp [lt_trans hab hbc]
      · by_cases hcb : c < b
        · simp [hbc, hcb] at hyz
        · have hbc' : b = c := le_antisymm (le_of_not_lt hcb) (le_of_not_lt hbc)
          subst hbc'
          simp [hab]
    · by_cases hba : b < a
      · simp [hab, hba] at hxy
      · have hab' : a = b := le_antisymm (le_of_not_lt hba) (le_of_not_lt hab)
        subst hab'
        simp only [lt_irrefl, if_false] at hxy
        by_cases hac : a < c
        · simp [hac]
        · by_cases hca : c < a
          · simp [hac, hca] at hyz
          · have hac' : a = c := le_antisymm (le_of_not_lt hca) (le_of_not_lt hac)
            subst hac'
            simp only [lt_irrefl, if_false] at hyz ⊢
            exact lexLe_trans as bs cs hxy hyz

theorem lexLe_antisymm : ∀ x y : List Char,
    lexLe x y = true → lexLe y x = true → x = y
  | [], [] => fun _ _ => rfl
  | [], _ :: _ => fun _ h => by simp [lexLe] at h
  | _ :: _, [] => fun h _ => by simp [lexLe] at h
  | a :: as, b :: bs => fun hxy hyx => by
    simp only [lexLe] at hxy hyx
    by_cases hab : a < b
    · simp [lt_asymm hab, hab] at hyx
    · by_cases hba : b < a
      · simp [hab, hba] at hxy
      · have hab' : a = b := le_antisymm (le_of_not_lt hba) (le_of_not_lt hab)
        subst hab'
        simp only [lt_irrefl, if_false] at hxy hyx
        rw [lexLe_antisymm as bs hxy hyx]

theorem optLe_total : ∀ u v : Option String, optLe u v = true ∨ optLe v u = true
  | none, _ => Or.inl rfl
  | some _, none => Or.inr rfl
  | some s, some t => lexLe_total s.data t.data

theorem optLe_trans : ∀ u v w : Option String,
    optLe u v = true → optLe v w = true → optLe u w = true
  | none, _, _ => fun _ _ => rfl
  | some _, none, _ => fun h _ => by simp [optLe] at h
  | some _, some _, none => fun _ h => by simp [optLe] at h
  | some s, some t, some r => fun h1 h2 => lexLe_trans s.data t.data r.data h1 h2

theorem optLe_antisymm : ∀ u v : Option String,
    optLe u v = true → optLe v u = true → u = v
  | none, none, _, _ => rfl
  | none, some _, _, h => by simp [optLe] at h
  | some _, none, h, _ => by simp [optLe] at h
  | some s, some t, h1, h2 =>
    congrArg some (String.ext (lexLe_antisymm s.data t.data h1 h2))

theorem keyLt_trans {u v w : Option String} (h1 : keyLt u v) (h2 : keyLt v w) :
    keyLt u w := by
  refine ⟨optLe_trans u v w h1.1 h2.1, fun he => ?_⟩
  subst he
  exact h2.2 (optLe_antisymm v u h2.1 h1.1)

/-! Properties of the sorting step. -/

theorem sortedColumns_perm (cols : List ColumnDescription) :
    (sortedColumns cols).Perm cols :=
  List.perm_insertionSort colLe cols

theorem sortedColumns_sorted (cols : List ColumnDescription) :
    (sortedColumns cols).Pairwise colLe := by
  haveI : IsTotal ColumnDescription colLe :=
    ⟨fun a b => optLe_total a.column_name b.column_name⟩
  haveI : IsTrans ColumnDescription colLe :=
    ⟨fun a b c => optLe_trans a.column_name b.column_name c.column_name⟩
  exact List.sorted_insertionSort colLe cols

/-! Properties of the grouping step. -/

theorem groupRuns_flatMap : ∀ l : List ColumnDescription,
    (groupRuns l).flatMap Prod.snd = l := by
  intro l
  induction l with
  | nil => rfl
  | cons c cs ih =>
    cases hg : groupRuns cs with
    | nil =>
      have hcs : cs = [] := by rw [← ih, hg]; rfl
      subst hcs
      rfl
    | cons q rest =>
      obtain ⟨k, g⟩ := q
      by_cases hk : c.column_name = k
      · rw [show groupRuns (c :: cs) = (k, c :: g) :: rest by simp [groupRuns, hg, hk]]
        rw [← ih, hg]
        simp [List.flatMap_cons]
      · rw [show groupRuns (c :: cs) = (c.column_name, [c]) :: (k, g) :: rest by
          simp [groupRuns, hg, hk]]
        rw [← ih, hg]
        simp [List.flatMap_cons]

theorem groupRuns_key : ∀ (l : List ColumnDescription)
    (p : Option String × List ColumnDescription),
    p ∈ groupRuns l → ∀ c ∈ p.2, c.column_name = p.1 := by
  intro l
  induction l with
  | nil => intro p hp; simp [groupRuns] at hp
  | cons a as ih =>
    intro p hp c hc
    cases hg : groupRuns as with
    | nil =>
      rw [show groupRuns (a :: as) = [(a.column_name, [a])] by simp [groupRuns, hg]] at hp
      simp only [List.mem_singleton] at hp
      subst hp
      simp only [List.mem_singleton] at hc
      subst hc
      rfl
    | cons q rest =>
      obtain ⟨k, g⟩ := q
      by_cases hk : a.column_name = k
      · rw [show groupRuns (a :: as) = (k, a :: g) :: rest by simp [groupRuns, hg, hk]] at hp
        rcases List.mem_cons.mp hp with hp1 | hp2
        · subst hp1
          rcases List.mem_cons.mp hc with hc1 | hc2
          · subst hc1; exact hk
          · exact ih (k, g) (by rw [hg]; exact List.mem_cons_self _ _) c hc2
        · exact ih p (by rw [hg]; exact List.mem_cons_of_mem _ hp2) c hc
      · rw [show groupRuns (a :: as) = (a.column_name, [a]) :: (k, g) :: rest by
          simp [groupRuns, hg, hk]] at hp
        rcases List.mem_cons.mp hp with hp1 | hp2
        · subst hp1
          simp only [List.mem_singleton] at hc
          subst hc
          rfl
        · exact ih p (by rw [hg]; exact hp2) c hc

theorem groupRuns_nonempty : ∀ (l : List ColumnDescription)
    (p : Option String × List ColumnDescription), p ∈ groupRuns l → p.2 ≠ [] := by
  intro l
  induction l with
  | nil => intro p hp; simp [groupRuns] at hp
  | cons a as ih =>
    intro p hp
    cases hg : groupRuns as with
    | nil =>
      rw [show groupRuns (a :: as) = [(a.column_name, [a])] by simp [groupRuns, hg]] at hp
      simp only [List.mem_singleton] at hp
      subst hp
      simp
    | cons q rest =>
      obtain ⟨k, g⟩ := q
      by_cases hk : a.column_name = k
      · rw [show groupRuns (a :: as) = (k, a :: g) :: rest by simp [groupRuns, hg, hk]] at hp
        rcases List.mem_cons.mp hp with hp1 | hp2
        · subst hp1; simp
        · exact ih p (by rw [hg]; exact List.mem_cons_of_mem _ hp2)
      · rw [show groupRuns (a :: as) = (a.column_name, [a]) :: (k, g) :: rest by
          simp [groupRuns, hg, hk]] at hp
        rcases List.mem_cons.mp hp with hp1 | hp2
        · subst hp1; simp
        · exact ih p (by rw [hg]; exact hp2)

theorem mem_of_mem_groupRuns {l : List ColumnDescription}
    {p : Option String × List ColumnDescription} {c : ColumnDescription}
    (hp : p ∈ groupRuns l) (hc : c ∈ p.2) : c ∈ l := by
  rw [← groupRuns_flatMap l]
  exact List.mem_flatMap.mpr ⟨p, hp, hc⟩

theorem groupRuns_key_mem {l : List ColumnDescription}
    {p : Option String × List ColumnDescription} (hp : p ∈ groupRuns l) :
    ∃ c ∈ l, c.column_name = p.1 := by
  obtain ⟨c, hc⟩ := List.exists_mem_of_ne_nil p.2 (groupRuns_nonempty l p hp)
  exact ⟨c, mem_of_mem_groupRuns hp hc, groupRuns_key l p hp c hc⟩

theorem groupRuns_keys_pairwise : ∀ l : List ColumnDescription, l.Pairwise colLe →
    ((groupRuns l).map Prod.fst).Pairwise keyLt := by
  intro l
  induction l with
  | nil => intro _; simp [groupRuns]
  | cons a as ih =>
    intro hs
    rw [List.pairwise_cons] at hs
    obtain ⟨ha, has⟩ := hs
    have IH := ih has
    cases hg : groupRuns as with
    | nil =>
      rw [show groupRuns (a :: as) = [(a.column_name, [a])] by simp [groupRuns, hg]]
      simp
    | cons q rest =>
      obtain ⟨k, g⟩ := q
      have hkey : ∀ k1 ∈ ((k, g) :: rest).map Prod.fst, ∃ x ∈ as, x.column_name = k1 := by
        intro k1 hk1
        rw [← hg] at hk1
        obtain ⟨p, hp, hpk⟩ := List.mem_map.mp hk1
        obtain ⟨x, hx, hxk⟩ := groupRuns_key_mem hp
        exact ⟨x, hx, hpk ▸ hxk⟩
      have hle : ∀ k1 ∈ ((k, g) :: rest).map Prod.fst, optLe a.column_name k1 = true := by
        intro k1 hk1
        obtain ⟨x, hx, hxk⟩ := hkey k1 hk1
        have hax := ha x hx
        rw [← hxk]
        exact hax
      rw [hg] at IH
      by_cases hk : a.column_name = k
      · rw [show groupRuns (a :: as) = (k, a :: g) :: rest by simp [groupRuns, hg, hk]]
        have hmapeq : ((k, a :: g) :: rest).map Prod.fst = ((k, g) :: rest).map Prod.fst := by
          simp
        rw [hmapeq]
        exact IH
      · rw [show groupRuns (a :: as) = (a.column_name, [a]) :: (k, g) :: rest by
          simp [groupRuns, hg, hk]]
        rw [List.map_cons, List.pairwise_cons]
        refine ⟨?_, IH⟩
        intro k1 hk1
        refine ⟨hle k1 hk1, fun heq => ?_⟩
        have heq' : a.column_name = k1 := heq
        rw [List.map_cons] at hk1
        rcases List.mem_cons.mp hk1 with hk1h | hk1t
        · exact hk (heq'.trans hk1h)
        · have hkk1 : keyLt k k1 := List.rel_of_pairwise_cons IH hk1t
          have h1 : optLe k a.column_name = true := by rw [heq']; exact hkk1.1
          have h2 : optLe a.column_name k = true := hle k (by simp)
          exact hk (optLe_antisymm a.column_name k h2 h1)

theorem groupRuns_group_eq_filter {l : List ColumnDescription} (hs : l.Pairwise colLe)
    {p : Option String × List ColumnDescription} (hp : p ∈ groupRuns l) :
    p.2 = l.filter (fun c => decide (c.column_name = p.1)) := by
  obtain ⟨s, t, hst⟩ := List.append_of_mem hp
  have hjoin := groupRuns_flatMap l
  rw [hst, List.flatMap_append, List.flatMap_cons] at hjoin
  have hkeys := groupRuns_keys_pairwise l hs
  rw [hst, List.map_append, List.map_cons, List.pairwise_append] at hkeys
  obtain ⟨hks, hkpt, hcross⟩ := hkeys
  rw [← hjoin, List.filter_append, List.filter_append]
  have h1 : (s.flatMap Prod.snd).filter (fun c => decide (c.column_name = p.1)) = [] := by
    rw [List.filter_eq_nil_iff]
    intro x hx
    obtain ⟨q, hq, hxq⟩ := List.mem_flatMap.mp hx
    have hxk : x.column_name = q.1 :=
      groupRuns_key l q (by rw [hst]; exact List.mem_append_left _ hq) x hxq
    have hlt : keyLt q.1 p.1 :=
      hcross q.1 (List.mem_map_of_mem _ hq) p.1 (List.mem_cons_self _ _)
    simp only [decide_eq_true_eq]
    rw [hxk]
    exact hlt.2
  have h2 : (t.flatMap Prod.snd).filter (fun c => decide (c.column_name = p.1)) = [] := by
    rw [List.filter_eq_nil_iff]
    intro x hx
    obtain ⟨q, hq, hxq⟩ := List.mem_flatMap.mp hx
    have hxk : x.column_name = q.1 :=
      groupRuns_key l q
        (by rw [hst]; exact List.mem_append_right _ (List.mem_cons_of_mem _ hq)) x hxq
    have hlt : keyLt p.1 q.1 := List.rel_of_pairwise_cons hkpt (List.mem_map_of_mem _ hq)
    simp only [decide_eq_true_eq]
    rw [hxk]
    exact fun hqe => hlt.2 hqe.symm
  have h3 : p.2.filter (fun c => decide (c.column_name = p.1)) = p.2 := by
    rw [List.filter_eq_self]
    intro c hc
    simp only [decide_eq_true_eq]
    exact groupRuns_key l p hp c hc
  rw [h1, h3]
  rw [h2]
  simp

theorem groupedColumns_group_perm (cols : List ColumnDescription)
    {p : Option String × List ColumnDescription} (hp : p ∈ groupedColumns cols) :
    p.2.Perm (cols.filter (fun c => decide (c.column_name = p.1))) := by
  have h := groupRuns_group_eq_filter (sortedColumns_sorted cols) hp
  rw [h]
  exact List.Perm.filter _ (sortedColumns_perm cols)

/-! Properties of the extraction step. -/

theorem mem_get_all_columns {schemas : List ModelSchema} {il : List String}
    {c : ColumnDescription} :
    c ∈ get_all_columns schemas il ↔
      ∃ r ∈ schemas, ∃ col ∈ r.columns, pyNotIn col.name il = true ∧
        c = ⟨col.name, col.description, r.file, none⟩ := by
  unfold get_all_columns
  rw [List.mem_flatMap]
  constructor
  · rintro ⟨r, hr, hc⟩
    obtain ⟨col, hcol, hsome⟩ := List.mem_filterMap.mp hc
    by_cases hpy : pyNotIn col.name il
    · rw [if_pos hpy] at hsome
      exact ⟨r, hr, col, hcol, hpy, (Option.some_injective _ hsome).symm⟩
    · rw [if_neg hpy] at hsome
      cases hsome
  · rintro ⟨r, hr, col, hcol, hpy, hc⟩
    refine ⟨r, hr, List.mem_filterMap.mpr ⟨col, hcol, ?_⟩⟩
    rw [if_pos hpy]
    exact congrArg some hc.symm

theorem get_all_name_notin {schemas : List ModelSchema} {il : List String}
    {c : ColumnDescription} (hc : c ∈ get_all_columns schemas il)
    {n : String} (hn : c.column_name = some n) : n ∉ il := by
  obtain ⟨r, hr, col, hcol, hpy, hceq⟩ := mem_get_all_columns.mp hc
  rw [hceq] at hn
  have hcol_n : col.name = some n := hn
  rw [hcol_n] at hpy
  simp only [pyNotIn, decide_eq_true_eq] at hpy
  exact hpy


/-! Status characterisation and the bridge between groups and names. -/

theorem statusOf_eq_one_iff (cols : List ColumnDescription) :
    statusOf cols = 1 ↔ ∃ p ∈ groupedColumns cols, isConflict p = true := by
  unfold statusOf
  by_cases h : (groupedColumns cols).any isConflict = true
  · rw [if_pos h]
    exact ⟨fun _ => List.any_eq_true.mp h, fun _ => rfl⟩
  · rw [if_neg h]
    constructor
    · intro h0; exact absurd h0 (by simp)
    · intro hx; exact absurd (List.any_eq_true.mpr hx) h

theorem statusOf_eq_zero_iff (cols : List ColumnDescription) :
    statusOf cols = 0 ↔ ¬ ∃ p ∈ groupedColumns cols, isConflict p = true := by
  unfold statusOf
  by_cases h : (groupedColumns cols).any isConflict = true
  · rw [if_pos h]
    constructor
    · intro h0; exact absurd h0 (by simp)
    · intro hx; exact absurd (List.any_eq_true.mp h) hx
  · rw [if_neg h]
    exact ⟨fun _ hx => h (List.any_eq_true.mpr hx), fun _ => rfl⟩

theorem check_column_desc_ok (schemas : List ModelSchema) (ignore : Option (List String))
    (h : pySortRaises (get_all_columns schemas (ignore.getD [])) = false) :
    check_column_desc schemas ignore
      = Except.ok (statusOf (get_all_columns schemas (ignore.getD []))) := by
  unfold check_column_desc
  rw [h]
  rfl

theorem pySortRaises_eq_false_of_wf (schemas : List ModelSchema) (il : List String)
    (hwf : ∀ r ∈ schemas, ∀ c ∈ r.columns, c.name ≠ none) :
    pySortRaises (get_all_columns schemas il) = false := by
  unfold pySortRaises
  have hany : (get_all_columns schemas il).any (fun c => c.column_name.isNone) = false := by
    rw [List.any_eq_false]
    intro c hc
    obtain ⟨r, hr, col, hcol, hpy, hceq⟩ := mem_get_all_columns.mp hc
    rw [hceq]
    show ¬ (col.name.isNone = true)
    rw [Option.isNone_iff_eq_none]
    exact hwf r hr col hcol
  rw [hany, Bool.and_false]

theorem exists_group_of_filter_ne {cols : List ColumnDescription} {k : Option String}
    (hne : cols.filter (fun c => decide (c.column_name = k)) ≠ []) :
    ∃ p ∈ groupedColumns cols, p.1 = k := by
  obtain ⟨x, hx⟩ := List.exists_mem_of_ne_nil _ hne
  obtain ⟨hxc, hxk⟩ := List.mem_filter.mp hx
  have hxs : x ∈ sortedColumns cols := ((sortedColumns_perm cols).mem_iff).mpr hxc
  rw [← groupRuns_flatMap (sortedColumns cols)] at hxs
  obtain ⟨p, hp, hxp⟩ := List.mem_flatMap.mp hxs
  refine ⟨p, hp, ?_⟩
  have hk := groupRuns_key _ p hp x hxp
  exact hk.symm.trans (of_decide_eq_true hxk)

theorem status_iff_specConflict (schemas : List ModelSchema) (il : List String)
    (hwf : ∀ r ∈ schemas, ∀ c ∈ r.columns, c.name ≠ none) :
    (∃ p ∈ groupedColumns (get_all_columns schemas il), isConflict p = true)
      ↔ specConflict schemas il := by
  constructor
  · rintro ⟨p, hp, hconf⟩
    obtain ⟨c, hcs, hck⟩ := groupRuns_key_mem hp
    have hc : c ∈ get_all_columns schemas il := ((sortedColumns_perm _).mem_iff).mp hcs
    obtain ⟨r, hr, col, hcol, hpy, hceq⟩ := mem_get_all_columns.mp hc
    obtain ⟨n, hnsome⟩ : ∃ n : String, c.column_name = some n := by
      cases hcn : col.name with
      | none => exact absurd hcn (hwf r hr col hcol)
      | some n =>
        refine ⟨n, ?_⟩
        rw [hceq]
        exact hcn
    have hkey : p.1 = some n := by rw [← hck, hnsome]
    have hnil : n ∉ il := get_all_name_notin hc hnsome
    refine ⟨n, hnil, ?_⟩
    unfold isConflict at hconf
    rw [Bool.and_eq_true, decide_eq_true_eq, decide_eq_true_eq] at hconf
    have hperm : (p.2.map (fun c => c.description)).Perm (descriptionsFor schemas il n) := by
      have h := (groupedColumns_group_perm _ hp).map (fun c => c.description)
      rw [hkey] at h
      exact h
    exact hconf.2.trans_eq (hperm.dedup.length_eq)
  · rintro ⟨n, hnil, hlen⟩
    have hne : (get_all_columns schemas il).filter
        (fun c => decide (c.column_name = some n)) ≠ [] := by
      intro h
      have hempty : descriptionsFor schemas il n = [] := by
        unfold descriptionsFor
        rw [h]
        rfl
      rw [hempty] at hlen
      simp at hlen
    obtain ⟨p, hp, hkey⟩ := exists_group_of_filter_ne hne
    refine ⟨p, hp, ?_⟩
    unfold isConflict
    rw [Bool.and_eq_true, decide_eq_true_eq, decide_eq_true_eq]
    have hperm : (p.2.map (fun c => c.description)).Perm (descriptionsFor schemas il n) := by
      have h := (groupedColumns_group_perm _ hp).map (fun c => c.description)
      rw [hkey] at h
      exact h
    have hdl : (p.2.map (fun c => c.description)).dedup.length
        = (descriptionsFor schemas il n).dedup.length := hperm.dedup.length_eq
    constructor
    · have hlen2 : (p.2.map (fun c => c.description)).length
          = (descriptionsFor schemas il n).length := hperm.length_eq
      rw [List.length_map] at hlen2
      have hded : (descriptionsFor schemas il n).dedup.length
          ≤ (descriptionsFor schemas il n).length := (List.dedup_sublist _).length_le
      omega
    · rw [hdl]
      exact hlen

theorem one_lt_dedup_length_of_mem_ne {l : List (Option String)} {a b : Option String}
    (ha : a ∈ l) (hb : b ∈ l) (hab : a ≠ b) : 1 < l.dedup.length := by
  have ha' : a ∈ l.dedup := List.mem_dedup.mpr ha
  have hb' : b ∈ l.dedup := List.mem_dedup.mpr hb
  cases hl : l.dedup with
  | nil => rw [hl] at ha'; cases ha'
  | cons x t =>
    cases ht : t with
    | nil =>
      rw [hl, ht] at ha' hb'
      simp only [List.mem_singleton] at ha' hb'
      exact absurd (ha'.trans hb'.symm) hab
    | cons y t2 =>
      simp only [List.length_cons]
      omega

theorem isConflict_of_dedup (schemas : List ModelSchema) (il : List String) (n : String)
    {p : Option String × List ColumnDescription}
    (hp : p ∈ groupedColumns (get_all_columns schemas il)) (hkey : p.1 = some n)
    (hdd : 1 < (descriptionsFor schemas il n).dedup.length) : isConflict p = true := by
  unfold isConflict
  rw [Bool.and_eq_true, decide_eq_true_eq, decide_eq_true_eq]
  have hperm : (p.2.map (fun c => c.description)).Perm (descriptionsFor schemas il n) := by
    have h := (groupedColumns_group_perm _ hp).map (fun c => c.description)
    rw [hkey] at h
    exact h
  have hdl := hperm.dedup.length_eq
  have hlen2 := hperm.length_eq
  rw [List.length_map] at hlen2
  have hded := (List.dedup_sublist (descriptionsFor schemas il n)).length_le
  constructor
  · omega
  · omega

theorem filterMap_filter_invisible (il : List String) (n : String) (hn : n ∈ il)
    (file : String) : ∀ cols : List RawColumn,
    (cols.filter (fun c => !(decide (c.name = some n)))).filterMap
        (fun column => if pyNotIn column.name il = true then
            some ({ column_name := column.name, description := column.description,
                    file := file } : ColumnDescription)
          else none)
      = cols.filterMap
          (fun column => if pyNotIn column.name il = true then
              some ({ column_name := column.name, description := column.description,
                      file := file } : ColumnDescription)
            else none) := by
  intro cols
  induction cols with
  | nil => rfl
  | cons col rest ih =>
    by_cases hcn : col.name = some n
    · rw [List.filter_cons, if_neg (by simp [hcn])]
      have hfc : (fun column : RawColumn => if pyNotIn column.name il = true then
            some ({ column_name := column.name, description := column.description,
                    file := file } : ColumnDescription)
          else none) col = none := by
        have hred : (if pyNotIn col.name il = true then
            some ({ column_name := col.name, description := col.description,
                    file := file } : ColumnDescription)
          else none) = none := by
          rw [hcn]
          simp [pyNotIn, hn]
        exact hred
      rw [ih, @List.filterMap_cons_none RawColumn ColumnDescription
        (fun column => if pyNotIn column.name il = true then
            some ({ column_name := column.name, description := column.description,
                    file := file } : ColumnDescription)
          else none) col rest hfc]
    · rw [List.filter_cons, if_pos (by simp [hcn])]
      simp only [List.filterMap_cons]
      rw [ih]

/-! Claim theorems. -/

/-- C1: for every sequence of schema records (well formed, i.e. every column
entry carries a name, as the data model requires) and every ignore set,
`check_column_desc` returns status 1 exactly when some column name outside
the ignore set has more than one distinct description value among its
extracted occurrences, and status 0 otherwise. -/
theorem check_status_iff_conflict (schemas : List ModelSchema)
    (ignore : Option (List String))
    (hwf : ∀ r ∈ schemas, ∀ c ∈ r.columns, c.name ≠ none) :
    (check_column_desc schemas ignore = Except.ok 1
        ↔ specConflict schemas (ignore.getD []))
    ∧ (check_column_desc schemas ignore = Except.ok 0
        ↔ ¬ specConflict schemas (ignore.getD [])) := by
  have hraise := pySortRaises_eq_false_of_wf schemas (ignore.getD []) hwf
  have hok := check_column_desc_ok schemas ignore hraise
  have hiff := status_iff_specConflict schemas (ignore.getD []) hwf
  constructor
  · rw [hok]
    constructor
    · intro h
      have h1 : statusOf (get_all_columns schemas (ignore.getD [])) = 1 := by
        injection h
      exact hiff.mp ((statusOf_eq_one_iff _).mp h1)
    · intro h
      rw [(statusOf_eq_one_iff _).mpr (hiff.mpr h)]
  · rw [hok]
    constructor
    · intro h hs
      have h0 : statusOf (get_all_columns schemas (ignore.getD [])) = 0 := by
        injection h
      exact ((statusOf_eq_zero_iff _).mp h0) (hiff.mpr hs)
    · intro h
      rw [(statusOf_eq_zero_iff _).mpr (fun hx => h (hiff.mp hx))]

/-- Exercises C1 on concrete input: two files giving `x` different
descriptions make the check fail. -/
theorem check_status_iff_conflict_witness :
    check_column_desc schemasA none = Except.ok 1 :=
  (check_status_iff_conflict schemasA none (by decide)).1.mpr
    ⟨"x", by decide, by decide⟩

/-- C7: on an empty sequence of schema records the check completes, reports
no conflicts, and returns status 0. -/
theorem empty_input_passes : ∀ ignore : Option (List String),
    check_column_desc [] ignore = Except.ok 0
    ∧ conflictGroups (get_all_columns [] (ignore.getD [])) = [] :=
  fun _ => ⟨rfl, rfl⟩

/-- C8: when manifest loading fails, `main` returns exit code 1 and
`check_column_desc` is never invoked; when it succeeds, the core check runs
and its outcome is returned. -/
theorem main_manifest_gate : ∀ (e : String) (schemas : List ModelSchema)
    (ignore : Option (List String)),
    main (Except.error e) schemas ignore = (Except.ok 1, false)
    ∧ main (Except.ok ()) schemas ignore = (check_column_desc schemas ignore, true) :=
  fun _ _ _ => ⟨rfl, rfl⟩

/-- C9: the check is a pure function, so two runs on identical input return
identical results, and the reported conflict groups are strictly ordered by
the lexicographic column-name sort, which fixes their order. -/
theorem check_deterministic_and_ordered (schemas : List ModelSchema)
    (ignore : Option (List String)) :
    check_column_desc schemas ignore = check_column_desc schemas ignore
    ∧ get_grouped schemas ignore = get_grouped schemas ignore
    ∧ ((conflictGroups (get_all_columns schemas (ignore.getD []))).map
        Prod.fst).Pairwise keyLt := by
  refine ⟨rfl, rfl, ?_⟩
  have h := groupRuns_keys_pairwise
    (sortedColumns (get_all_columns schemas (ignore.getD [])))
    (sortedColumns_sorted _)
  unfold conflictGroups
  exact List.Pairwise.sublist ((List.filter_sublist _).map Prod.fst) h

/-- C10: a missing ignore argument behaves exactly like the empty ignore
list, for both `check_column_desc` and `get_grouped`. -/
theorem falsy_ignore_eq_empty : ∀ schemas : List ModelSchema,
    check_column_desc schemas none = check_column_desc schemas (some [])
    ∧ get_grouped schemas none = get_grouped schemas (some []) :=
  fun _ => ⟨rfl, rfl⟩

/-- C2: after the global sort and the partition into maximal runs of equal
names, group keys are pairwise distinct, the groups concatenate back to the
sorted list, the sorted list is a permutation of the extracted descriptors
(so no occurrence is dropped or duplicated), every member of a group carries
the group key, and two descriptors with equal column names never land in
different groups. -/
theorem grouping_no_split (schemas : List ModelSchema) (ignore : Option (List String)) :
    ((groupedColumns (get_all_columns schemas (ignore.getD []))).map Prod.fst).Nodup
    ∧ (groupedColumns (get_all_columns schemas (ignore.getD []))).flatMap Prod.snd
        = sortedColumns (get_all_columns schemas (ignore.getD []))
    ∧ (sortedColumns (get_all_columns schemas (ignore.getD []))).Perm
        (get_all_columns schemas (ignore.getD []))
    ∧ (∀ p ∈ groupedColumns (get_all_columns schemas (ignore.getD [])),
        ∀ c ∈ p.2, c.column_name = p.1)
    ∧ ∀ p ∈ groupedColumns (get_all_columns schemas (ignore.getD [])),
        ∀ q ∈ groupedColumns (get_all_columns schemas (ignore.getD [])),
          ∀ x ∈ p.2, ∀ y ∈ q.2, x.column_name = y.column_name → p = q := by
  set cols := get_all_columns schemas (ignore.getD [])
  have hpair := groupRuns_keys_pairwise (sortedColumns cols) (sortedColumns_sorted cols)
  have hnodup : ((groupedColumns cols).map Prod.fst).Nodup := by
    unfold groupedColumns
    exact hpair.imp (fun h => h.2)
  refine ⟨hnodup, groupRuns_flatMap _, sortedColumns_perm _,
    fun p hp => groupRuns_key _ p hp, ?_⟩
  intro p hp q hq x hx y hy hxy
  have hpk := groupRuns_key _ p hp x hx
  have hqk := groupRuns_key _ q hq y hy
  have hkeq : p.1 = q.1 := by rw [← hpk, ← hqk, hxy]
  exact List.inj_on_of_nodup_map hnodup hp hq hkeq

/-- Exercises C2 on concrete input: the two occurrences of `x` from
different files land in the same group. -/
theorem grouping_no_split_witness :
    ((some ("x"), [(⟨some ("x"), some ("p"), "a.yml", none⟩ : ColumnDescription),
                 ⟨some ("x"), some ("q"), "b.yml", none⟩])
      : Option String × List ColumnDescription)
    = (some ("x"), [⟨some ("x"), some ("p"), "a.yml", none⟩,
                  ⟨some ("x"), some ("q"), "b.yml", none⟩]) :=
  (grouping_no_split schemasB none).2.2.2.2
    (some ("x"), [⟨some ("x"), some ("p"), "a.yml", none⟩,
                ⟨some ("x"), some ("q"), "b.yml", none⟩]) (by decide)
    (some ("x"), [⟨some ("x"), some ("p"), "a.yml", none⟩,
                ⟨some ("x"), some ("q"), "b.yml", none⟩]) (by decide)
    ⟨some ("x"), some ("p"), "a.yml", none⟩ (by decide)
    ⟨some ("x"), some ("q"), "b.yml", none⟩ (by decide) (by decide)

/-- C3: a column name with at least one absent and at least one present
description among its extracted occurrences forms a conflict group, and the
run fails with status 1. -/
theorem absent_present_conflict (schemas : List ModelSchema)
    (ignore : Option (List String)) (n : String) (s : String)
    (hwf : ∀ r ∈ schemas, ∀ c ∈ r.columns, c.name ≠ none)
    (habs : none ∈ descriptionsFor schemas (ignore.getD []) n)
    (hpres : some s ∈ descriptionsFor schemas (ignore.getD []) n) :
    (∃ p ∈ groupedColumns (get_all_columns schemas (ignore.getD [])),
        p.1 = some n ∧ isConflict p = true)
    ∧ check_column_desc schemas ignore = Except.ok 1 := by
  have hdd : 1 < (descriptionsFor schemas (ignore.getD []) n).dedup.length :=
    one_lt_dedup_length_of_mem_ne habs hpres (by simp)
  have hne : (get_all_columns schemas (ignore.getD [])).filter
      (fun c => decide (c.column_name = some n)) ≠ [] := by
    intro h
    unfold descriptionsFor at habs
    rw [h] at habs
    cases habs
  obtain ⟨p, hp, hkey⟩ := exists_group_of_filter_ne hne
  have hconf := isConflict_of_dedup schemas (ignore.getD []) n hp hkey hdd
  refine ⟨⟨p, hp, hkey, hconf⟩, ?_⟩
  have hraise := pySortRaises_eq_false_of_wf schemas (ignore.getD []) hwf
  rw [check_column_desc_ok schemas ignore hraise,
    (statusOf_eq_one_iff _).mpr ⟨p, hp, hconf⟩]

/-- Exercises C3 on concrete input: `st` is described in one file and bare
in another, and the check fails. -/
theorem absent_present_conflict_witness :
    check_column_desc schemasC none = Except.ok 1 :=
  (absent_present_conflict schemasC none ("st") ("o") (by decide) (by decide)
    (by decide)).2

/-- C4 counterexample: a column entry with a missing name is not skipped:
the extractor emits a descriptor whose name is `none` for each of the two
malformed entries, and the run then raises from the sort instead of
proceeding. -/
theorem missing_name_emitted_cex :
    get_all_columns schemasD []
      = [⟨none, some ("d"), "model.yml", none⟩, ⟨none, some ("e"), "model.yml", none⟩]
    ∧ check_column_desc schemasD none = Except.error () := ⟨rfl, rfl⟩

/-- C4 amended: the extractor itself raises no error, but a malformed column
entry with a missing name is not skipped: a descriptor with an absent name
is always emitted for it, whatever the ignore list. -/
theorem missing_name_not_skipped (schemas : List ModelSchema) (il : List String)
    (r : ModelSchema) (hr : r ∈ schemas) (c : RawColumn) (hc : c ∈ r.columns)
    (hname : c.name = none) :
    (⟨none, c.description, r.file, none⟩ : ColumnDescription)
      ∈ get_all_columns schemas il := by
  apply mem_get_all_columns.mpr
  refine ⟨r, hr, c, hc, ?_, ?_⟩
  · rw [hname]
    rfl
  · rw [hname]

/-- Exercises the amended C4 on concrete input. -/
theorem missing_name_not_skipped_witness :
    (⟨none, some ("d"), "m.yml", none⟩ : ColumnDescription)
      ∈ get_all_columns schemasH [] :=
  missing_name_not_skipped schemasH [] ⟨"m.yml", [⟨none, some ("d")⟩]⟩ (by decide)
    ⟨none, some ("d")⟩ (by decide) rfl

/-- C5 counterexample: the column `u` appears in exactly one schema file,
twice with differing descriptions, yet the check reports it as a conflict
and fails with status 1. -/
theorem single_file_conflict_cex :
    (schemasE.filter (fun r => r.columns.any (fun c => decide (c.name = some ("u"))))).length = 1
    ∧ check_column_desc schemasE none = Except.ok 1
    ∧ (conflictGroups (get_all_columns schemasE [])).map Prod.fst = [some ("u")] :=
  ⟨by decide, rfl, by decide⟩

/-- C5 amended: a column name with at most one extracted occurrence overall
(in particular, a name occurring exactly once in a single file) is never
reported as a conflict group. -/
theorem single_occurrence_no_conflict (schemas : List ModelSchema)
    (ignore : Option (List String)) (n : String)
    (hocc : (descriptionsFor schemas (ignore.getD []) n).length ≤ 1) :
    ∀ p ∈ conflictGroups (get_all_columns schemas (ignore.getD [])), p.1 ≠ some n := by
  intro p hp hkey
  unfold conflictGroups at hp
  obtain ⟨hpg, hconf⟩ := List.mem_filter.mp hp
  unfold isConflict at hconf
  rw [Bool.and_eq_true, decide_eq_true_eq, decide_eq_true_eq] at hconf
  have hperm : (p.2.map (fun c => c.description)).Perm
      (descriptionsFor schemas (ignore.getD []) n) := by
    have h := (groupedColumns_group_perm _ hpg).map (fun c => c.description)
    rw [hkey] at h
    exact h
  have hlen := hperm.length_eq
  rw [List.length_map] at hlen
  have h1 := hconf.1
  omega

/-- Exercises the amended C5 on concrete input: the conflict group for `m`
is not a group for the once-occurring `n`. -/
theorem single_occurrence_no_conflict_witness :
    ((some ("m"), [(⟨some ("m"), some ("d1"), "a.yml", none⟩ : ColumnDescription),
                 ⟨some ("m"), some ("d2"), "b.yml", none⟩])
      : Option String × List ColumnDescription).1 ≠ some ("n") :=
  single_occurrence_no_conflict schemasF none ("n") (by decide)
    (some ("m"), [⟨some ("m"), some ("d1"), "a.yml", none⟩,
                ⟨some ("m"), some ("d2"), "b.yml", none⟩]) (by decide)

/-- C6: a column name in the ignore set is never extracted, never appears as
a group key, and removing its column entries from the input does not change
the outcome of the check at all. -/
theorem ignored_column_invisible (schemas : List ModelSchema)
    (ignore : Option (List String)) (n : String) (hn : n ∈ ignore.getD []) :
    (∀ c ∈ get_all_columns schemas (ignore.getD []), c.column_name ≠ some n)
    ∧ (∀ p ∈ groupedColumns (get_all_columns schemas (ignore.getD [])), p.1 ≠ some n)
    ∧ check_column_desc (dropColumn n schemas) ignore = check_column_desc schemas ignore := by
  have h1 : ∀ c ∈ get_all_columns schemas (ignore.getD []), c.column_name ≠ some n := by
    intro c hc hcn
    exact get_all_name_notin hc hcn hn
  refine ⟨h1, ?_, ?_⟩
  · intro p hp hkey
    obtain ⟨c, hcs, hck⟩ := groupRuns_key_mem hp
    have hc : c ∈ get_all_columns schemas (ignore.getD []) :=
      ((sortedColumns_perm _).mem_iff).mp hcs
    exact h1 c hc (hck.trans hkey)
  · have hga : get_all_columns (dropColumn n schemas) (ignore.getD [])
        = get_all_columns schemas (ignore.getD []) := by
      clear h1
      induction schemas with
      | nil => rfl
      | cons r rs ih =>
        have hstep : get_all_columns (dropColumn n (r :: rs)) (ignore.getD [])
            = ((r.columns.filter (fun c => !(decide (c.name = some n)))).filterMap
                (fun column => if pyNotIn column.name (ignore.getD []) = true then
                    some ({ column_name := column.name,
                            description := column.description,
                            file := r.file } : ColumnDescription)
                  else none))
              ++ get_all_columns (dropColumn n rs) (ignore.getD []) := by
          unfold get_all_columns dropColumn
          rw [List.map_cons, List.flatMap_cons]
        have hstep2 : get_all_columns (r :: rs) (ignore.getD [])
            = (r.columns.filterMap
                (fun column => if pyNotIn column.name (ignore.getD []) = true then
                    some ({ column_name := column.name,
                            description := column.description,
                            file := r.file } : ColumnDescription)
                  else none))
              ++ get_all_columns rs (ignore.getD []) := by
          unfold get_all_columns
          rw [List.flatMap_cons]
        rw [hstep, hstep2, ih,
          filterMap_filter_invisible (ignore.getD []) n hn r.file r.columns]
    unfold check_column_desc
    rw [hga]

/-- Exercises C6 on concrete input: deleting the ignored conflicting column
`n` from the input leaves the outcome unchanged. -/
theorem ignored_column_invisible_witness :
    check_column_desc (dropColumn ("n") schemasG) (some ["n"])
      = check_column_desc schemasG (some ["n"]) :=
  (ignored_column_invisible schemasG (some ["n"]) "n" (by decide)).2.2

end DbtCheckpoint
